import Mathlib

/-!
Verification development for a financial transaction-processing API
(`src/app.py`): remanent (round-up-to-100) computation, a bracketed
progressive tax schedule, date-ranged rule resolution (fixed-override Q
rules and additive P rules), transaction validation / deduplication, and a
compound-returns orchestrator.

Modelling conventions (shallow embedding):
* Python `Decimal` values are modelled by `ℚ`.  All `Decimal` arithmetic
  appearing in the source (`+`, `-`, `*`, `%`, comparisons) is exact on the
  values involved, so `ℚ` is a faithful model.
* Timestamps (`datetime` values obtained from `parse_date`, and the raw
  `YYYY-MM-DD HH:MM:SS` strings they come from) are modelled by `ℤ`:
  `parse_date` is an order-embedding from well-formed date strings to
  `datetime`, and the code only ever compares timestamps.
* Decimal quantization to 2 places with ROUND_HALF_UP is modelled by
  `round2` below (round to 2 fraction digits, halves away from zero).
* The Python Decimal remainder operator agrees with floor-mod when both operands are
  non-negative, which is the only way the source uses it; `decMod` uses
  floor-mod.
* The binary floating-point scratch computation in `fast_compound_math` is
  modelled by exact rational arithmetic: the symbolic expressions the code
  evaluates (`amount * (1+rate)**years`, division by the inflation factor)
  are carried out in `ℚ`.
-/

namespace BlackrockApp

/-- Model of Decimal quantization to two fraction digits with rounding mode
ROUND_HALF_UP: ties away from zero. -/
def round2 (x : ℚ) : ℚ :=
  if 0 ≤ x then (⌊x * 100 + 1 / 2⌋ : ℚ) / 100
  else -((⌊-x * 100 + 1 / 2⌋ : ℚ) / 100)

/-- Python `Decimal` remainder `a % b` for the non-negative operands the
source applies it to (floor-mod). -/
def decMod (a b : ℚ) : ℚ := a - b * (⌊a / b⌋ : ℚ)

/-- Table `THRESHOLDS` from `app.py`. -/
def THRESHOLDS : List ℚ := [700000, 1000000, 1200000, 1500000]

/-- Table `PREV_THRESHOLDS` from `app.py`. -/
def PREV_THRESHOLDS : List ℚ := [0, 700000, 1000000, 1200000, 1500000]

/-- Table `BASE_TAX` from `app.py`. -/
def BASE_TAX : List ℚ := [0, 0, 30000, 60000, 120000]

/-- Table `RATES` from `app.py`. -/
def RATES : List ℚ := [0, 10 / 100, 15 / 100, 20 / 100, 30 / 100]

/-- Insertion point `bisect.bisect_right l x`: on a sorted list it is the number of
elements `≤ x` (insertion point to the right of equal values).
`THRESHOLDS` is strictly increasing, so this `countP` formulation is the
specification the binary search implements. -/
def bisect_right (l : List ℚ) (x : ℚ) : ℕ := l.countP (fun t => decide (t ≤ x))

/-- Function `calculate_tax` from `app.py` (lines 144–156): bracket lookup by
`bisect_right`, then base tax plus marginal rate on the excess, rounded. -/
def calculate_tax (yearly_income : ℚ) : ℚ :=
  let idx := bisect_right THRESHOLDS yearly_income
  round2 (BASE_TAX.getD idx 0 + (yearly_income - PREV_THRESHOLDS.getD idx 0) * RATES.getD idx 0)

/-- Function `calculate_remanent` from `app.py` (lines 158–165):
`(100 - amount % 100) % 100`, quantized. -/
def calculate_remanent (amount : ℚ) : ℚ :=
  round2 (decMod (100 - decMod amount 100) 100)

example : calculate_tax 500000 = 0 := by
  norm_num [calculate_tax, bisect_right, THRESHOLDS, PREV_THRESHOLDS, BASE_TAX, RATES,
    round2, List.countP, List.countP.go, Int.floor_eq_iff]

example : calculate_tax 800000 = 10000 := by
  norm_num [calculate_tax, bisect_right, THRESHOLDS, PREV_THRESHOLDS, BASE_TAX, RATES,
    round2, List.countP, List.countP.go, Int.floor_eq_iff]

example : calculate_remanent (21 / 2) = 179 / 2 := by
  norm_num [calculate_remanent, decMod, round2, Int.floor_eq_iff]

example : calculate_remanent 150 = 50 := by
  norm_num [calculate_remanent, decMod, round2, Int.floor_eq_iff]

example : calculate_remanent (1 / 1000) = 100 := by
  norm_num [calculate_remanent, decMod, round2, Int.floor_eq_iff]

/-- Function `fast_compound_math` from `app.py` (lines 167–175).  The source computes
in binary floating point as an internal scratch representation; the symbolic
expressions it evaluates are modelled exactly over `ℚ`. -/
def fast_compound_math (period_amount rate inflation_rate : ℚ) (years : ℕ) : ℚ × ℚ :=
  let future_value := period_amount * (1 + rate) ^ years
  let real_value := future_value / (1 + inflation_rate / 100) ^ years
  (future_value, real_value)

/-- Model of `PeriodQ`: a fixed-override rule as supplied in the request. -/
structure PeriodQ where
  fixed : ℚ
  start : ℤ
  stop : ℤ
  deriving DecidableEq, Repr

/-- Model of `PeriodP`: an additive-extra rule as supplied in the request. -/
structure PeriodP where
  extra : ℚ
  start : ℤ
  stop : ℤ
  deriving DecidableEq, Repr

/-- Model of `PeriodK`: an inclusion window as supplied in the request. -/
structure PeriodK where
  start : ℤ
  stop : ℤ
  deriving DecidableEq, Repr

/-- A parsed Q tuple `(q_start, q_end, q_fixed, q_idx)` as built at
`app.py` lines 205 / 310. -/
structure ParsedQ where
  qstart : ℤ
  qend : ℤ
  qfixed : ℚ
  qidx : ℕ
  deriving DecidableEq, Repr

/-- Parsing loop `[(parse_date(q.start), parse_date(q.end), q.fixed, idx) for
idx, q in enumerate(payload.q)]`, with the enumeration counter made explicit. -/
def parseQFrom (i : ℕ) : List PeriodQ → List ParsedQ
  | [] => []
  | q :: rest => ⟨q.start, q.stop, q.fixed, i⟩ :: parseQFrom (i + 1) rest

/-- Parsed Q rules with ordinals `0, 1, 2, …` in declaration order. -/
def parseQ (qs : List PeriodQ) : List ParsedQ := parseQFrom 0 qs

/-- Parsing loop `[(parse_date(p.start), parse_date(p.end), p.extra) for p in payload.p]`. -/
def parseP (ps : List PeriodP) : List (ℤ × ℤ × ℚ) :=
  ps.map (fun p => (p.start, p.stop, p.extra))

/-- The descending sort order used at `app.py` line 191:
`applicable_qs.sort(key=lambda x: (x[0], x[1]), reverse=True)` sorts the
`(q_start, q_idx, q_fixed)` triples so that larger `(start, idx)`
lexicographic keys come first. -/
def qKeyGE (a b : ℤ × ℕ × ℚ) : Prop :=
  b.1 < a.1 ∨ (b.1 = a.1 ∧ b.2.1 ≤ a.2.1)

instance : DecidableRel qKeyGE := fun a b => by
  unfold qKeyGE; infer_instance

instance : IsTotal (ℤ × ℕ × ℚ) qKeyGE :=
  ⟨fun a b => by unfold qKeyGE; omega⟩

instance : IsTrans (ℤ × ℕ × ℚ) qKeyGE :=
  ⟨fun a b c hab hbc => by unfold qKeyGE at *; omega⟩

/-- Function `process_transaction_rules_fast` from `app.py` (lines 177–198): collect
the applicable Q rules, sort them descending by `(start, ordinal)` and take
the fixed value of the head if any; then add the extras of every applicable P
rule. -/
def process_transaction_rules_fast (tx_date : ℤ) (current_remanent : ℚ)
    (parsed_q : List ParsedQ) (parsed_p : List (ℤ × ℤ × ℚ)) : ℚ :=
  let applicable_qs : List (ℤ × ℕ × ℚ) :=
    (parsed_q.filter (fun q => decide (q.qstart ≤ tx_date) && decide (tx_date ≤ q.qend))).map
      (fun q => (q.qstart, q.qidx, q.qfixed))
  let sorted := applicable_qs.insertionSort qKeyGE
  let after_q : ℚ :=
    match sorted with
    | [] => current_remanent
    | best :: _ => best.2.2
  parsed_p.foldl
    (fun acc p => if p.1 ≤ tx_date ∧ tx_date ≤ p.2.1 then acc + p.2.2 else acc) after_q

example :
    process_transaction_rules_fast 16 50
      (parseQ [⟨100, 1, 31⟩]) (parseP [⟨20, 1, 31⟩]) = 120 := by
  norm_num [process_transaction_rules_fast, parseQ, parseQFrom, parseP,
    List.insertionSort, List.orderedInsert, List.filter, List.foldl]

example :
    process_transaction_rules_fast 5 7
      (parseQ [⟨50, 0, 10⟩, ⟨60, 2, 10⟩, ⟨70, 2, 10⟩, ⟨80, 6, 10⟩]) [] = 70 := by
  norm_num [process_transaction_rules_fast, parseQ, parseQFrom, parseP,
    List.insertionSort, List.orderedInsert, qKeyGE, List.filter, List.foldl]

/-- Model of `TransactionOutput`.  The `date` field stands for both the raw
date string and its parsed `datetime` (see the header: parsing is an order
embedding). -/
structure TransactionOutput where
  date : ℤ
  amount : ℚ
  ceiling : ℚ
  remanent : ℚ
  inkPeriod : Option Bool := none
  message : Option String := none
  deriving DecidableEq, Repr

/-- The negative-amount rejection message set at `app.py` lines 294 / 316. -/
def negMsg : String := "Negative amounts are not allowed"

/-- The duplicate rejection message set at `app.py` lines 297 / 320. -/
def dupMsg : String := "Duplicate transaction"

/-- The loop body of `validate_transactions` (`app.py` lines 292–301),
written as structural recursion carrying the `seen_dates` set (modelled as
a list).  Appending each classified transaction to the end of the growing
`valid` / `invalid` list corresponds to consing onto the result of the
recursive call. -/
def validate_go (seen : List ℤ) :
    List TransactionOutput → List TransactionOutput × List TransactionOutput
  | [] => ([], [])
  | tx :: rest =>
    if tx.amount < 0 then
      let r := validate_go seen rest
      (r.1, { tx with message := some negMsg } :: r.2)
    else if tx.date ∈ seen then
      let r := validate_go seen rest
      (r.1, { tx with message := some dupMsg } :: r.2)
    else
      let r := validate_go (tx.date :: seen) rest
      (tx :: r.1, r.2)

/-- Endpoint body of `validate_transactions` (`app.py` lines 287–303): returns
`(valid, invalid)`. -/
def validate_transactions (txs : List TransactionOutput) :
    List TransactionOutput × List TransactionOutput :=
  validate_go [] txs

/-- The loop body of `filter_transactions` (`app.py` lines 314–330):
validation as in `validate_go`, and each accepted transaction gets its
remanent resolved through the Q/P rules and its `inkPeriod` flag set from
the K windows. -/
def filter_go (parsed_q : List ParsedQ) (parsed_p : List (ℤ × ℤ × ℚ))
    (parsed_k : List (ℤ × ℤ)) (seen : List ℤ) :
    List TransactionOutput → List TransactionOutput × List TransactionOutput
  | [] => ([], [])
  | tx :: rest =>
    if tx.amount < 0 then
      let r := filter_go parsed_q parsed_p parsed_k seen rest
      (r.1, { tx with message := some negMsg } :: r.2)
    else if tx.date ∈ seen then
      let r := filter_go parsed_q parsed_p parsed_k seen rest
      (r.1, { tx with message := some dupMsg } :: r.2)
    else
      let newRem := process_transaction_rules_fast tx.date tx.remanent parsed_q parsed_p
      let ink := parsed_k.any (fun k => decide (k.1 ≤ tx.date) && decide (tx.date ≤ k.2))
      let r := filter_go parsed_q parsed_p parsed_k (tx.date :: seen) rest
      ({ tx with remanent := newRem, inkPeriod := some ink } :: r.1, r.2)

/-- Endpoint body of `filter_transactions` (`app.py` lines 305–332). -/
def filter_transactions (qs : List PeriodQ) (ps : List PeriodP) (ks : List PeriodK)
    (txs : List TransactionOutput) :
    List TransactionOutput × List TransactionOutput :=
  filter_go (parseQ qs) (parseP ps) (ks.map (fun k => (k.start, k.stop))) [] txs

/-- Model of `ReturnsRequest` (`wage` is the monthly wage). -/
structure ReturnsRequest where
  age : ℤ
  wage : ℚ
  inflation : ℚ
  q : List PeriodQ
  p : List PeriodP
  k : List PeriodK
  transactions : List TransactionOutput

/-- Model of `SavingsByDate`; `taxBenefit = none` models the absent/null
field. -/
structure SavingsByDate where
  start : ℤ
  stop : ℤ
  amount : ℚ
  profit : Option ℚ := none
  taxBenefit : Option ℚ := none
  deriving DecidableEq, Repr

/-- Model of `ReturnsResponse`. -/
structure ReturnsResponse where
  totalTransactionAmount : ℚ
  totalCeiling : ℚ
  savingsByDates : List SavingsByDate
  deriving DecidableEq, Repr

/-- The validation loop of `calculate_returns` (`app.py` lines 214–221):
keep transactions with `amount >= 0` and an unseen date, resolve their
remanent through the rules, and record `(parsed date, resolved remanent)`.
Returns the list of kept `(date, remanent)` pairs. -/
def returns_valid_txs (parsed_q : List ParsedQ) (parsed_p : List (ℤ × ℤ × ℚ))
    (seen : List ℤ) : List TransactionOutput → List (ℤ × ℚ)
  | [] => []
  | tx :: rest =>
    if 0 ≤ tx.amount ∧ tx.date ∉ seen then
      (tx.date, process_transaction_rules_fast tx.date tx.remanent parsed_q parsed_p) ::
        returns_valid_txs parsed_q parsed_p (tx.date :: seen) rest
    else
      returns_valid_txs parsed_q parsed_p seen rest

/-- The raw amounts summed over the same accepted transactions
(`total_tx_amount` accumulation at `app.py` line 220). -/
def returns_total_amount (seen : List ℤ) : List TransactionOutput → ℚ
  | [] => 0
  | tx :: rest =>
    if 0 ≤ tx.amount ∧ tx.date ∉ seen then
      tx.amount + returns_total_amount (tx.date :: seen) rest
    else
      returns_total_amount seen rest

/-- The ceilings summed over the same accepted transactions
(`total_ceiling` accumulation at `app.py` line 221). -/
def returns_total_ceiling (seen : List ℤ) : List TransactionOutput → ℚ
  | [] => 0
  | tx :: rest =>
    if 0 ≤ tx.amount ∧ tx.date ∉ seen then
      tx.ceiling + returns_total_ceiling (tx.date :: seen) rest
    else
      returns_total_ceiling seen rest

/-- One `SavingsByDate` entry (`app.py` lines 228–251): sum the resolved
remanents of the accepted transactions inside the window, project the real
value, and (for NPS only) compute the tax benefit. -/
def savings_entry (valid_txs : List (ℤ × ℚ)) (yearly_income : ℚ) (years : ℕ)
    (rate inflation : ℚ) (is_nps : Bool) (k : PeriodK) : SavingsByDate :=
  let period_amount :=
    ((valid_txs.filter (fun d => decide (k.start ≤ d.1) && decide (d.1 ≤ k.stop))).map
      (fun d => d.2)).sum
  let real_value := (fast_compound_math period_amount rate inflation years).2
  let profit := round2 (real_value - period_amount)
  let tax_benefit :=
    if is_nps then
      let deduction := min period_amount (min (10 / 100 * yearly_income) 200000)
      round2 (calculate_tax yearly_income - calculate_tax (yearly_income - deduction))
    else 0
  { start := k.start, stop := k.stop,
    amount := round2 period_amount,
    profit := some profit,
    taxBenefit := if is_nps then some tax_benefit else none }

/-- Function `calculate_returns` from `app.py` (lines 203–257). -/
def calculate_returns (payload : ReturnsRequest) (rate : ℚ) (is_nps : Bool) :
    ReturnsResponse :=
  let parsed_q := parseQ payload.q
  let parsed_p := parseP payload.p
  let valid_txs := returns_valid_txs parsed_q parsed_p [] payload.transactions
  let yearly_income := payload.wage * 12
  let years_to_invest := (max (60 - payload.age) 5).toNat
  { totalTransactionAmount := round2 (returns_total_amount [] payload.transactions),
    totalCeiling := round2 (returns_total_ceiling [] payload.transactions),
    savingsByDates :=
      payload.k.map
        (savings_entry valid_txs yearly_income years_to_invest rate payload.inflation is_nps) }

/-- Endpoint `returns_nps` (`app.py` lines 334–336): rate 7.11%, NPS. -/
def returns_nps (payload : ReturnsRequest) : ReturnsResponse :=
  calculate_returns payload (711 / 10000) true

/-- Endpoint `returns_index` (`app.py` lines 338–340): rate 14.49%, Index. -/
def returns_index (payload : ReturnsRequest) : ReturnsResponse :=
  calculate_returns payload (1449 / 10000) false

/-- Strip the mutable `message` annotation, recovering the transaction as
it stood in the input stream. -/
def stripMsg (tx : TransactionOutput) : TransactionOutput :=
  { tx with message := none }

/-- The raw (pre-rounding) tax expression, written out bracket by
bracket. -/
def tax_raw (x : ℚ) : ℚ :=
  if x < 700000 then 0
  else if x < 1000000 then (x - 700000) * (10 / 100)
  else if x < 1200000 then 30000 + (x - 1000000) * (15 / 100)
  else if x < 1500000 then 60000 + (x - 1200000) * (20 / 100)
  else 120000 + (x - 1500000) * (30 / 100)

/-- The Q rules applicable at `tx_date` (the list comprehension at
`app.py` lines 184–188, before projecting to sort keys). -/
def applicableQ (tx_date : ℤ) (parsed_q : List ParsedQ) : List ParsedQ :=
  parsed_q.filter (fun q => decide (q.qstart ≤ tx_date) && decide (tx_date ≤ q.qend))

/-! ### Helper lemmas -/

lemma round2_nonneg {x : ℚ} (hx : 0 ≤ x) : 0 ≤ round2 x := by
  rw [round2, if_pos hx]
  positivity

lemma round2_mono_of_nonneg {x y : ℚ} (hx : 0 ≤ x) (hxy : x ≤ y) :
    round2 x ≤ round2 y := by
  rw [round2, round2, if_pos hx, if_pos (hx.trans hxy)]
  have h1 : (⌊x * 100 + 1 / 2⌋ : ℤ) ≤ ⌊y * 100 + 1 / 2⌋ := by
    apply Int.floor_mono; nlinarith
  have h2 : ((⌊x * 100 + 1 / 2⌋ : ℤ) : ℚ) ≤ ((⌊y * 100 + 1 / 2⌋ : ℤ) : ℚ) := by
    exact_mod_cast h1
  linarith

lemma round2_le_100_of_lt {x : ℚ} (hx : 0 ≤ x) (h : x < 100) : round2 x ≤ 100 := by
  rw [round2, if_pos hx]
  have hfl : (⌊x * 100 + 1 / 2⌋ : ℤ) ≤ 10000 := by
    apply Int.le_of_lt_add_one
    apply Int.floor_lt.2
    push_cast
    nlinarith
  have h2 : ((⌊x * 100 + 1 / 2⌋ : ℤ) : ℚ) ≤ ((10000 : ℤ) : ℚ) := by
    exact_mod_cast hfl
  push_cast at h2
  linarith

lemma round2_intCast_div_100 (n : ℤ) : round2 ((n : ℚ) / 100) = (n : ℚ) / 100 := by
  rcases le_or_lt 0 n with hn | hn
  · rw [round2, if_pos (by positivity)]
    have : ((n : ℚ) / 100) * 100 + 1 / 2 = n + 1 / 2 := by ring
    rw [this]
    have hfl : ⌊(n : ℚ) + 1 / 2⌋ = n := by
      rw [Int.floor_eq_iff]
      constructor <;> push_cast <;> [linarith; linarith]
    rw [hfl]
  · have hneg : (n : ℚ) / 100 < 0 := by
      have hn' : (n : ℚ) < 0 := by exact_mod_cast hn
      exact div_neg_of_neg_of_pos hn' (by norm_num)
    rw [round2, if_neg (not_le.2 hneg)]
    have harg : -((n : ℚ) / 100) * 100 + 1 / 2 = -n + 1 / 2 := by ring
    rw [harg]
    have hfl : ⌊-(n : ℚ) + 1 / 2⌋ = -n := by
      rw [Int.floor_eq_iff]
      constructor <;> push_cast <;> linarith
    rw [hfl]
    push_cast
    ring

lemma decMod_nonneg {a b : ℚ} (hb : 0 < b) : 0 ≤ decMod a b := by
  have h := Int.floor_le (a / b)
  rw [decMod]
  have : b * (⌊a / b⌋ : ℚ) ≤ b * (a / b) := by
    apply mul_le_mul_of_nonneg_left h hb.le
  rw [mul_div_cancel₀ a hb.ne.symm] at this
  linarith

lemma decMod_lt {a b : ℚ} (hb : 0 < b) : decMod a b < b := by
  have h := Int.lt_floor_add_one (a / b)
  rw [decMod]
  have : b * (a / b) < b * ((⌊a / b⌋ : ℚ) + 1) := by
    apply mul_lt_mul_of_pos_left h hb
  rw [mul_div_cancel₀ a hb.ne.symm] at this
  nlinarith

lemma calculate_tax_eq_cases (x : ℚ) : calculate_tax x = round2 (tax_raw x) := by
  unfold calculate_tax bisect_right THRESHOLDS PREV_THRESHOLDS BASE_TAX RATES tax_raw
  rcases lt_or_le x 700000 with h1 | h1
  · have h2 : x < 1000000 := by linarith
    have h3 : x < 1200000 := by linarith
    have h4 : x < 1500000 := by linarith
    simp [List.countP, List.countP.go, not_le.2 h1, not_le.2 h2, not_le.2 h3, not_le.2 h4,
      h1, h2, h3, h4]
  · rcases lt_or_le x 1000000 with h2 | h2
    · have h3 : x < 1200000 := by linarith
      have h4 : x < 1500000 := by linarith
      simp [List.countP, List.countP.go, h1, not_le.2 h2, not_le.2 h3, not_le.2 h4,
        not_lt.2 h1, h2, h3, h4]
    · rcases lt_or_le x 1200000 with h3 | h3
      · have h4 : x < 1500000 := by linarith
        simp [List.countP, List.countP.go, h1, h2, not_le.2 h3, not_le.2 h4,
          not_lt.2 h1, not_lt.2 h2, h3, h4]
      · rcases lt_or_le x 1500000 with h4 | h4
        · simp [List.countP, List.countP.go, h1, h2, h3, not_le.2 h4,
            not_lt.2 h1, not_lt.2 h2, not_lt.2 h3, h4]
        · simp [List.countP, List.countP.go, h1, h2, h3, h4,
            not_lt.2 h1, not_lt.2 h2, not_lt.2 h3, not_lt.2 h4]

lemma tax_raw_nonneg (x : ℚ) : 0 ≤ tax_raw x := by
  unfold tax_raw
  split_ifs <;> linarith

lemma tax_raw_mono {a b : ℚ} (h : a ≤ b) : tax_raw a ≤ tax_raw b := by
  unfold tax_raw
  split_ifs <;> linarith

/-- The conditional fold over P rules is the base value plus the sum of the
extras of the applicable rules. -/
lemma foldl_p_rules (t : ℤ) :
    ∀ (l : List (ℤ × ℤ × ℚ)) (init : ℚ),
      l.foldl (fun acc p => if p.1 ≤ t ∧ t ≤ p.2.1 then acc + p.2.2 else acc) init =
        init + ((l.filter (fun p => decide (p.1 ≤ t) && decide (t ≤ p.2.1))).map
          (fun p => p.2.2)).sum
  | [], init => by simp
  | p :: rest, init => by
    rcases Decidable.em (p.1 ≤ t ∧ t ≤ p.2.1) with hp | hp
    · rw [List.foldl_cons, if_pos hp, foldl_p_rules t rest (init + p.2.2)]
      rw [List.filter_cons_of_pos (by simp [hp.1, hp.2])]
      simp
      ring
    · rw [List.foldl_cons, if_neg hp, foldl_p_rules t rest init]
      rw [List.filter_cons_of_neg (by simpa using fun h1 h2 => hp ⟨h1, h2⟩)]

lemma parseQFrom_idx_ge : ∀ (qs : List PeriodQ) (i : ℕ), ∀ e ∈ parseQFrom i qs, i ≤ e.qidx
  | [], _, e, he => absurd he (by simp [parseQFrom])
  | q :: rest, i, e, he => by
    rw [parseQFrom] at he
    rcases List.mem_cons.1 he with h | h
    · subst h; exact le_refl i
    · exact (Nat.le_succ i).trans (parseQFrom_idx_ge rest (i + 1) e h)

/-- Within one parsed-Q list the declaration ordinals are distinct: an
element is determined by its ordinal. -/
lemma parseQFrom_idx_inj : ∀ (qs : List PeriodQ) (i : ℕ),
    ∀ e1 ∈ parseQFrom i qs, ∀ e2 ∈ parseQFrom i qs, e1.qidx = e2.qidx → e1 = e2
  | [], _, e1, he1, _, _, _ => absurd he1 (by simp [parseQFrom])
  | q :: rest, i, e1, he1, e2, he2, hidx => by
    rw [parseQFrom] at he1 he2
    rcases List.mem_cons.1 he1 with h1 | h1 <;> rcases List.mem_cons.1 he2 with h2 | h2
    · rw [h1, h2]
    · exfalso
      have := parseQFrom_idx_ge rest (i + 1) e2 h2
      rw [h1] at hidx
      simp at hidx
      omega
    · exfalso
      have := parseQFrom_idx_ge rest (i + 1) e1 h1
      rw [h2] at hidx
      simp at hidx
      omega
    · exact parseQFrom_idx_inj rest (i + 1) e1 h1 e2 h2 hidx

/-! ### Claim theorems -/

/-- C2: for every non-negative yearly income, the tax is
`baseTax[idx] + (income - previousThreshold[idx]) * rate[idx]` rounded
half-up to 2 decimals, where `idx` counts the thresholds `≤` the income
(insert-right semantics: income exactly at a threshold falls into the
bracket above, witnessed at every threshold); `tax 500000 = 0` and
`tax 800000 = 10000`. -/
theorem C2_tax_bracket_formula :
    (∀ yi : ℚ, 0 ≤ yi →
      calculate_tax yi =
        round2 (BASE_TAX.getD (bisect_right THRESHOLDS yi) 0 +
          (yi - PREV_THRESHOLDS.getD (bisect_right THRESHOLDS yi) 0) *
            RATES.getD (bisect_right THRESHOLDS yi) 0) ∧
      bisect_right THRESHOLDS yi = THRESHOLDS.countP (fun th => decide (th ≤ yi))) ∧
    bisect_right THRESHOLDS 700000 = 1 ∧
    bisect_right THRESHOLDS 1000000 = 2 ∧
    bisect_right THRESHOLDS 1200000 = 3 ∧
    bisect_right THRESHOLDS 1500000 = 4 ∧
    calculate_tax 500000 = 0 ∧
    calculate_tax 800000 = 10000 := by
  refine ⟨fun yi _ => ⟨rfl, rfl⟩, ?_, ?_, ?_, ?_, ?_, ?_⟩
  · norm_num [bisect_right, THRESHOLDS, List.countP, List.countP.go]
  · norm_num [bisect_right, THRESHOLDS, List.countP, List.countP.go]
  · norm_num [bisect_right, THRESHOLDS, List.countP, List.countP.go]
  · norm_num [bisect_right, THRESHOLDS, List.countP, List.countP.go]
  · norm_num [calculate_tax_eq_cases, tax_raw, round2, Int.floor_eq_iff]
  · norm_num [calculate_tax_eq_cases, tax_raw, round2, Int.floor_eq_iff]

theorem C2_witness :
    calculate_tax 800000 =
      round2 (BASE_TAX.getD (bisect_right THRESHOLDS 800000) 0 +
        (800000 - PREV_THRESHOLDS.getD (bisect_right THRESHOLDS 800000) 0) *
          RATES.getD (bisect_right THRESHOLDS 800000) 0) :=
  (C2_tax_bracket_formula.1 800000 (by norm_num)).1

/-- C5 counterexample: for `amount = 0.001` the raw remanent is `99.999`,
which rounds half-up to `100.00`, so the result is NOT in `[0, 100)`. -/
theorem C5_counterexample :
    calculate_remanent (1 / 1000) = 100 ∧ ¬ calculate_remanent (1 / 1000) < 100 := by
  constructor
  · norm_num [calculate_remanent, decMod, round2, Int.floor_eq_iff]
  · norm_num [calculate_remanent, decMod, round2, Int.floor_eq_iff]

/-- C5 (amended): for every non-negative amount the remanent is
`(100 - (amount mod 100)) mod 100` rounded half-up to 2 decimals, and lies
in `[0, 100]`; it lies in `[0, 100)` whenever the amount is a whole number
of hundredths; it is `0` (not `100`) on exact multiples of `100`;
`remanent 10.50 = 89.50` and `remanent 150.00 = 50.00`. -/
theorem C5_remanent_amended :
    (∀ a : ℚ, 0 ≤ a →
      calculate_remanent a = round2 (decMod (100 - decMod a 100) 100) ∧
      0 ≤ calculate_remanent a ∧ calculate_remanent a ≤ 100) ∧
    (∀ k : ℕ, calculate_remanent (100 * k) = 0) ∧
    (∀ n : ℕ, calculate_remanent ((n : ℚ) / 100) < 100) ∧
    calculate_remanent (21 / 2) = 179 / 2 ∧
    calculate_remanent 150 = 50 := by
  have hb : (0 : ℚ) < 100 := by norm_num
  refine ⟨fun a _ => ⟨rfl, ?_, ?_⟩, ?_, ?_, ?_, ?_⟩
  · exact round2_nonneg (decMod_nonneg hb)
  · exact round2_le_100_of_lt (decMod_nonneg hb) (decMod_lt hb)
  · intro k
    have h1 : decMod (100 * (k : ℚ)) 100 = 0 := by
      rw [decMod]
      have : (100 * (k : ℚ)) / 100 = (k : ℚ) := by field_simp
      rw [this, Int.floor_natCast]
      push_cast
      ring
    have h2 : decMod (100 - 0 : ℚ) 100 = 0 := by
      rw [decMod]
      norm_num
    rw [calculate_remanent, h1, h2]
    norm_num [round2, Int.floor_eq_iff]
  · intro n
    have h10000 : ((10000 : ℕ) : ℤ) = 10000 := by norm_num
    have hm1 : decMod ((n : ℚ) / 100) 100 = (((n : ℤ) % 10000 : ℤ) : ℚ) / 100 := by
      rw [decMod]
      have hdiv : ((n : ℚ) / 100) / 100 = ((n : ℤ) : ℚ) / ((10000 : ℕ) : ℚ) := by
        push_cast; ring
      rw [hdiv, Rat.floor_intCast_div_natCast]
      rw [Int.emod_def]
      push_cast
      ring
    set r : ℤ := (n : ℤ) % 10000 with hr
    have hr0 : 0 ≤ r := Int.emod_nonneg _ (by norm_num)
    have hr1 : r < 10000 := Int.emod_lt_of_pos _ (by norm_num)
    rw [calculate_remanent, hm1]
    rcases eq_or_lt_of_le hr0 with hzero | hpos
    · have : (100 : ℚ) - ((r : ℚ)) / 100 = 100 := by rw [← hzero]; norm_num
      rw [this]
      have h2 : decMod (100 : ℚ) 100 = 0 := by
        rw [decMod]
        norm_num
      rw [h2]
      norm_num [round2, Int.floor_eq_iff]
    · have hy : (100 : ℚ) - (r : ℚ) / 100 = ((10000 - r : ℤ) : ℚ) / 100 := by
        push_cast; ring
      rw [hy]
      have hyr0 : (0 : ℚ) < ((10000 - r : ℤ) : ℚ) / 100 := by
        have : (0 : ℤ) < 10000 - r := by omega
        have h' : (0 : ℚ) < ((10000 - r : ℤ) : ℚ) := by exact_mod_cast this
        positivity
      have hyr1 : ((10000 - r : ℤ) : ℚ) / 100 ≤ 100 := by
        have : (10000 - r : ℤ) ≤ 10000 := by omega
        have h' : ((10000 - r : ℤ) : ℚ) ≤ 10000 := by exact_mod_cast this
        linarith
      have h2 : decMod (((10000 - r : ℤ) : ℚ) / 100) 100 = ((10000 - r : ℤ) : ℚ) / 100 := by
        rw [decMod]
        have hfl : ⌊(((10000 - r : ℤ) : ℚ) / 100) / 100⌋ = 0 := by
          rw [Int.floor_eq_zero_iff, Set.mem_Ico]
          have hle : (10000 - r : ℤ) ≤ 9999 := by omega
          have h9 : ((10000 - r : ℤ) : ℚ) ≤ 9999 := by exact_mod_cast hle
          have h0 : (0 : ℚ) ≤ ((10000 - r : ℤ) : ℚ) := by
            exact_mod_cast (by omega : (0 : ℤ) ≤ 10000 - r)
          constructor
          · linarith
          · linarith
        rw [hfl]
        ring
      rw [h2, round2_intCast_div_100]
      have hle : (10000 - r : ℤ) ≤ 9999 := by omega
      have h' : ((10000 - r : ℤ) : ℚ) ≤ 9999 := by exact_mod_cast hle
      linarith
  · norm_num [calculate_remanent, decMod, round2, Int.floor_eq_iff]
  · norm_num [calculate_remanent, decMod, round2, Int.floor_eq_iff]

theorem C5_witness :
    (0 ≤ calculate_remanent (3 / 2) ∧ calculate_remanent (3 / 2) ≤ 100) ∧
    calculate_remanent (100 * (7 : ℕ)) = 0 ∧
    calculate_remanent (((250 : ℕ) : ℚ) / 100) < 100 :=
  ⟨(C5_remanent_amended.1 (3 / 2) (by norm_num)).2,
    C5_remanent_amended.2.1 7, C5_remanent_amended.2.2.1 250⟩

/-- C8: the rounded tax function is monotone non-decreasing, the base-tax
table satisfies the continuity recurrence
`baseTax[i+1] = baseTax[i] + (threshold[i] - prevThreshold[i]) * rate[i]`,
and at every threshold the tax computed from the bracket below equals the
value of the function there (which is computed in the bracket at/above). -/
theorem C8_tax_monotone_continuous :
    (∀ a b : ℚ, a ≤ b → calculate_tax a ≤ calculate_tax b) ∧
    (∀ i : ℕ, i < 4 →
      BASE_TAX.getD (i + 1) 0 =
        BASE_TAX.getD i 0 +
          (THRESHOLDS.getD i 0 - PREV_THRESHOLDS.getD i 0) * RATES.getD i 0) ∧
    (∀ i : ℕ, i < 4 →
      calculate_tax (THRESHOLDS.getD i 0) =
        round2 (BASE_TAX.getD i 0 +
          (THRESHOLDS.getD i 0 - PREV_THRESHOLDS.getD i 0) * RATES.getD i 0)) := by
  refine ⟨?_, ?_, ?_⟩
  · intro a b hab
    rw [calculate_tax_eq_cases, calculate_tax_eq_cases]
    exact round2_mono_of_nonneg (tax_raw_nonneg a) (tax_raw_mono hab)
  · intro i hi
    interval_cases i <;>
      norm_num [BASE_TAX, THRESHOLDS, PREV_THRESHOLDS, RATES]
  · intro i hi
    interval_cases i <;>
      norm_num [BASE_TAX, THRESHOLDS, PREV_THRESHOLDS, RATES,
        calculate_tax_eq_cases, tax_raw]

lemma process_eq_applicable (t : ℤ) (b : ℚ) (qs : List ParsedQ)
    (ps : List (ℤ × ℤ × ℚ)) :
    process_transaction_rules_fast t b qs ps =
      ps.foldl (fun acc p => if p.1 ≤ t ∧ t ≤ p.2.1 then acc + p.2.2 else acc)
        (match ((applicableQ t qs).map
            (fun q => (q.qstart, q.qidx, q.qfixed))).insertionSort qKeyGE with
          | [] => b
          | best :: _ => best.2.2) := rfl

lemma mem_applicableQ_mem {t : ℤ} {qs : List ParsedQ} {r : ParsedQ}
    (h : r ∈ applicableQ t qs) : r ∈ qs := by
  unfold applicableQ at h
  exact (List.mem_filter.1 h).1

lemma mem_parseQ_idx_inj {qs : List PeriodQ} {r w : ParsedQ}
    (hr : r ∈ parseQ qs) (hw : w ∈ parseQ qs) (h : r.qidx = w.qidx) : r = w :=
  parseQFrom_idx_inj qs 0 r hr w hw h

/-- C1: among the Q rules whose closed interval contains the timestamp,
`process_transaction_rules_fast` (with no P rules) picks exactly one
winner — the one whose `(start, declaration ordinal)` is lexicographically
strictly greatest — and returns its `fixed` value regardless of the base
remanent; with no applicable Q rule the base remanent passes through. -/
theorem C1_fixed_override_resolution (t : ℤ) (b : ℚ) (qs : List PeriodQ) :
    (applicableQ t (parseQ qs) = [] →
      process_transaction_rules_fast t b (parseQ qs) [] = b) ∧
    (applicableQ t (parseQ qs) ≠ [] →
      ∃ w ∈ applicableQ t (parseQ qs),
        (∀ r ∈ applicableQ t (parseQ qs), r ≠ w →
          r.qstart < w.qstart ∨ (r.qstart = w.qstart ∧ r.qidx < w.qidx)) ∧
        ∀ b' : ℚ, process_transaction_rules_fast t b' (parseQ qs) [] = w.qfixed) := by
  constructor
  · intro h
    rw [process_eq_applicable, h]
    simp [List.insertionSort]
  · intro h
    have hlne : ((applicableQ t (parseQ qs)).map
        (fun q => (q.qstart, q.qidx, q.qfixed))) ≠ [] := by
      simpa using h
    have hperm := List.perm_insertionSort qKeyGE
      ((applicableQ t (parseQ qs)).map (fun q => (q.qstart, q.qidx, q.qfixed)))
    have hsorted := List.sorted_insertionSort qKeyGE
      ((applicableQ t (parseQ qs)).map (fun q => (q.qstart, q.qidx, q.qfixed)))
    have hsne : ((applicableQ t (parseQ qs)).map
        (fun q => (q.qstart, q.qidx, q.qfixed))).insertionSort qKeyGE ≠ [] := by
      intro hnil
      rw [hnil] at hperm
      exact hlne hperm.nil_eq.symm
    obtain ⟨best, tail, hbt⟩ := List.exists_cons_of_ne_nil hsne
    have hbm : best ∈ (applicableQ t (parseQ qs)).map
        (fun q => (q.qstart, q.qidx, q.qfixed)) := by
      apply hperm.mem_iff.1
      rw [hbt]
      exact List.mem_cons_self _ _
    obtain ⟨w, hw_mem, hw_eq⟩ := List.mem_map.1 hbm
    refine ⟨w, hw_mem, ?_, ?_⟩
    · intro r hr hrw
      have hrm : (r.qstart, r.qidx, r.qfixed) ∈
          ((applicableQ t (parseQ qs)).map
            (fun q => (q.qstart, q.qidx, q.qfixed))).insertionSort qKeyGE :=
        hperm.mem_iff.2 (List.mem_map_of_mem _ hr)
      rw [hbt] at hrm
      rcases List.mem_cons.1 hrm with heq | htl
      · exfalso
        apply hrw
        have hidx : r.qidx = w.qidx := by
          have h2 := heq.trans hw_eq.symm
          exact congrArg (fun p => p.2.1) h2
        exact mem_parseQ_idx_inj (mem_applicableQ_mem hr) (mem_applicableQ_mem hw_mem) hidx
      · have hrel := List.rel_of_sorted_cons (hbt ▸ hsorted) _ htl
        rw [← hw_eq] at hrel
        rcases hrel with h1 | ⟨h1, h2⟩
        · exact Or.inl h1
        · refine Or.inr ⟨h1, ?_⟩
          rcases lt_or_eq_of_le h2 with h3 | h3
          · exact h3
          · exact absurd
              (mem_parseQ_idx_inj (mem_applicableQ_mem hr) (mem_applicableQ_mem hw_mem) h3)
              hrw
    · intro b'
      rw [process_eq_applicable]
      simp only [List.foldl_nil]
      rw [hbt, ← hw_eq]

theorem C1_witness :
    process_transaction_rules_fast 5 7 (parseQ [⟨50, 0, 10⟩]) [] = 50 := by
  obtain ⟨w, hw, _, hres⟩ :=
    (C1_fixed_override_resolution 5 7 [⟨50, 0, 10⟩]).2
      (by simp [applicableQ, parseQ, parseQFrom])
  have hwv : w = ⟨0, 10, 50, 0⟩ := by
    simpa [applicableQ, parseQ, parseQFrom] using hw
  rw [hres 7, hwv]

lemma process_p_split (t : ℤ) (b : ℚ) (qs : List ParsedQ) (ps : List (ℤ × ℤ × ℚ)) :
    process_transaction_rules_fast t b qs ps =
      process_transaction_rules_fast t b qs [] +
        ((ps.filter (fun p => decide (p.1 ≤ t) && decide (t ≤ p.2.1))).map
          (fun p => p.2.2)).sum := by
  rw [process_eq_applicable, process_eq_applicable, foldl_p_rules]
  simp only [List.foldl_nil]

lemma parseP_filter_map (t : ℤ) : ∀ ps : List PeriodP,
    ((parseP ps).filter (fun p => decide (p.1 ≤ t) && decide (t ≤ p.2.1))).map
        (fun p => p.2.2) =
      (ps.filter (fun p => decide (p.start ≤ t) && decide (t ≤ p.stop))).map
        (fun p => p.extra)
  | [] => rfl
  | p :: rest => by
    by_cases hp : (decide (p.start ≤ t) && decide (t ≤ p.stop)) = true
    · simp only [parseP, List.map_cons, List.filter_cons, hp, if_true]
      exact congrArg (fun l => p.extra :: l) (parseP_filter_map t rest)
    · simp only [parseP, List.map_cons, List.filter_cons, hp, if_false]
      exact parseP_filter_map t rest

/-- C4: additive P rules are cumulative: the resolved remanent is the
fixed-rule result plus the sum of `extra` over exactly the P rules whose
closed interval contains the timestamp, invariant under reordering the P
rules; with empty Q and P sets the base remanent is returned unchanged. -/
theorem C4_additive_rules_cumulative (t : ℤ) (b : ℚ) (qs : List PeriodQ)
    (ps : List PeriodP) :
    process_transaction_rules_fast t b (parseQ qs) (parseP ps) =
      process_transaction_rules_fast t b (parseQ qs) [] +
        ((ps.filter (fun p => decide (p.start ≤ t) && decide (t ≤ p.stop))).map
          (fun p => p.extra)).sum ∧
    (∀ ps' : List PeriodP, ps.Perm ps' →
      process_transaction_rules_fast t b (parseQ qs) (parseP ps) =
        process_transaction_rules_fast t b (parseQ qs) (parseP ps')) ∧
    process_transaction_rules_fast t b [] [] = b := by
  refine ⟨?_, ?_, rfl⟩
  · rw [process_p_split, parseP_filter_map]
  · intro ps' hperm
    rw [process_p_split t b (parseQ qs) (parseP ps),
      process_p_split t b (parseQ qs) (parseP ps')]
    have h1 := hperm.map (fun p : PeriodP => (p.start, p.stop, p.extra))
    have h2 := h1.filter (fun p : ℤ × ℤ × ℚ => decide (p.1 ≤ t) && decide (t ≤ p.2.1))
    have h3 := List.Perm.sum_eq (h2.map (fun p : ℤ × ℤ × ℚ => p.2.2))
    exact congrArg (fun s => process_transaction_rules_fast t b (parseQ qs) [] + s) h3

theorem C4_witness :
    process_transaction_rules_fast 16 50 (parseQ []) (parseP [⟨10, 1, 31⟩, ⟨20, 5, 31⟩]) =
      process_transaction_rules_fast 16 50 (parseQ []) (parseP [⟨20, 5, 31⟩, ⟨10, 1, 31⟩]) ∧
    process_transaction_rules_fast 16 50 [] [] = 50 :=
  ⟨(C4_additive_rules_cumulative 16 50 [] [⟨10, 1, 31⟩, ⟨20, 5, 31⟩]).2.1
      [⟨20, 5, 31⟩, ⟨10, 1, 31⟩] (List.Perm.swap _ _ _),
    (C4_additive_rules_cumulative 16 50 [] []).2.2⟩

lemma stripMsg_update (tx : TransactionOutput) (m : Option String) :
    stripMsg { tx with message := m } = stripMsg tx := rfl

lemma validate_go_classification : ∀ (txs : List TransactionOutput) (seen : List ℤ),
    (∀ e ∈ (validate_go seen txs).2, e.amount < 0 → e.message = some negMsg) ∧
    (∀ e ∈ (validate_go seen txs).1, 0 ≤ e.amount)
  | [], seen => by simp [validate_go]
  | tx :: rest, seen => by
    rw [validate_go]
    by_cases h1 : tx.amount < 0
    · rw [if_pos h1]
      obtain ⟨ih2, ih1⟩ := validate_go_classification rest seen
      refine ⟨?_, ih1⟩
      intro e he hneg
      rcases List.mem_cons.1 he with h | h
      · rw [h]
      · exact ih2 e h hneg
    · rw [if_neg h1]
      by_cases h2 : tx.date ∈ seen
      · rw [if_pos h2]
        obtain ⟨ih2, ih1⟩ := validate_go_classification rest seen
        refine ⟨?_, ih1⟩
        intro e he hneg
        rcases List.mem_cons.1 he with h | h
        · exfalso
          rw [h] at hneg
          exact h1 hneg
        · exact ih2 e h hneg
      · rw [if_neg h2]
        obtain ⟨ih2, ih1⟩ := validate_go_classification rest (tx.date :: seen)
        refine ⟨ih2, ?_⟩
        intro e he
        rcases List.mem_cons.1 he with h | h
        · rw [h]; exact not_lt.1 h1
        · exact ih1 e h

lemma validate_go_neg_mem : ∀ (txs : List TransactionOutput) (seen : List ℤ)
    (tx : TransactionOutput), tx ∈ txs → tx.amount < 0 →
    { tx with message := some negMsg } ∈ (validate_go seen txs).2
  | [], _, _, h, _ => absurd h (List.not_mem_nil _)
  | t0 :: rest, seen, tx, hmem, hneg => by
    rw [validate_go]
    rcases List.mem_cons.1 hmem with heq | htl
    · subst heq
      rw [if_pos hneg]
      exact List.mem_cons_self _ _
    · by_cases h1 : t0.amount < 0
      · rw [if_pos h1]
        exact List.mem_cons_of_mem _ (validate_go_neg_mem rest seen tx htl hneg)
      · rw [if_neg h1]
        by_cases h2 : t0.date ∈ seen
        · rw [if_pos h2]
          exact List.mem_cons_of_mem _ (validate_go_neg_mem rest seen tx htl hneg)
        · rw [if_neg h2]
          exact validate_go_neg_mem rest (t0.date :: seen) tx htl hneg

lemma validate_go_partition : ∀ (txs : List TransactionOutput) (seen : List ℤ),
    (validate_go seen txs).1.length + (validate_go seen txs).2.length = txs.length ∧
    (validate_go seen txs).1.Sublist txs ∧
    ((validate_go seen txs).2.map stripMsg).Sublist (txs.map stripMsg)
  | [], seen => by simp [validate_go]
  | tx :: rest, seen => by
    rw [validate_go]
    by_cases h1 : tx.amount < 0
    · rw [if_pos h1]
      obtain ⟨ihlen, ihv, ihi⟩ := validate_go_partition rest seen
      refine ⟨?_, ihv.cons tx, ?_⟩
      · simp only [List.length_cons]
        omega
      · rw [List.map_cons, List.map_cons, stripMsg_update]
        exact ihi.cons₂ (stripMsg tx)
    · rw [if_neg h1]
      by_cases h2 : tx.date ∈ seen
      · rw [if_pos h2]
        obtain ⟨ihlen, ihv, ihi⟩ := validate_go_partition rest seen
        refine ⟨?_, ihv.cons tx, ?_⟩
        · simp only [List.length_cons]
          omega
        · rw [List.map_cons, List.map_cons, stripMsg_update]
          exact ihi.cons₂ (stripMsg tx)
      · rw [if_neg h2]
        obtain ⟨ihlen, ihv, ihi⟩ := validate_go_partition rest (tx.date :: seen)
        refine ⟨?_, ihv.cons₂ tx, ?_⟩
        · simp only [List.length_cons]
          omega
        · rw [List.map_cons]
          exact ihi.cons (stripMsg tx)

/-- C3: in the validator, negativity is checked before duplication: every
input transaction with a negative amount — in particular one whose date
duplicates an earlier accepted transaction — lands in the invalid list with
message "Negative amounts are not allowed" and never "Duplicate
transaction", and no negative transaction is accepted as valid. -/
theorem C3_negative_before_duplicate (txs : List TransactionOutput) :
    (∀ tx ∈ txs, tx.amount < 0 →
      { tx with message := some negMsg } ∈ (validate_transactions txs).2) ∧
    (∀ e ∈ (validate_transactions txs).2, e.amount < 0 →
      e.message = some negMsg ∧ e.message ≠ some dupMsg) ∧
    (∀ e ∈ (validate_transactions txs).1, 0 ≤ e.amount) := by
  obtain ⟨h2, h1⟩ := validate_go_classification txs []
  refine ⟨?_, ?_, h1⟩
  · intro tx hmem hneg
    exact validate_go_neg_mem txs [] tx hmem hneg
  · intro e he hneg
    have hm := h2 e he hneg
    refine ⟨hm, ?_⟩
    rw [hm]
    simp [negMsg, dupMsg]

theorem C3_witness :
    { date := (0 : ℤ), amount := (-5 : ℚ), ceiling := 0, remanent := 0,
        inkPeriod := none, message := some negMsg : TransactionOutput } ∈
      (validate_transactions
        [{ date := 0, amount := 3, ceiling := 0, remanent := 0 },
         { date := 0, amount := -5, ceiling := 0, remanent := 0 }]).2 :=
  (C3_negative_before_duplicate _).1
    { date := 0, amount := -5, ceiling := 0, remanent := 0 }
    (by simp) (by norm_num)

/-- C9: the validator partitions its input completely — the valid and
invalid counts sum to the input count — and each output list preserves the
relative order of the input (it is a sublist of the input, up to the `message`
annotation written on invalid entries). -/
theorem C9_validate_partition (txs : List TransactionOutput) :
    (validate_transactions txs).1.length + (validate_transactions txs).2.length =
      txs.length ∧
    (validate_transactions txs).1.Sublist txs ∧
    ((validate_transactions txs).2.map stripMsg).Sublist (txs.map stripMsg) :=
  validate_go_partition txs []

lemma validate_go_append : ∀ (l rest : List TransactionOutput) (seen : List ℤ),
    ∃ seen' : List ℤ,
      (validate_go seen (l ++ rest)).1 =
        (validate_go seen l).1 ++ (validate_go seen' rest).1 ∧
      (validate_go seen (l ++ rest)).2 =
        (validate_go seen l).2 ++ (validate_go seen' rest).2 ∧
      ∀ x ∈ seen', x ∈ seen ∨ ∃ u ∈ l, u.date = x ∧ 0 ≤ u.amount
  | [], rest, seen =>
    ⟨seen, by simp [validate_go], by simp [validate_go], fun x hx => Or.inl hx⟩
  | tx :: l, rest, seen => by
    simp only [List.cons_append]
    by_cases h1 : tx.amount < 0
    · obtain ⟨seen', hv, hi, hs⟩ := validate_go_append l rest seen
      refine ⟨seen', ?_, ?_, ?_⟩
      · simp only [validate_go, if_pos h1]
        exact hv
      · simp only [validate_go, if_pos h1]
        rw [hi, List.cons_append]
      · intro x hx
        rcases hs x hx with h | ⟨u, hu, hd, ha⟩
        · exact Or.inl h
        · exact Or.inr ⟨u, List.mem_cons_of_mem _ hu, hd, ha⟩
    · by_cases h2 : tx.date ∈ seen
      · obtain ⟨seen', hv, hi, hs⟩ := validate_go_append l rest seen
        refine ⟨seen', ?_, ?_, ?_⟩
        · simp only [validate_go, if_neg h1, if_pos h2]
          exact hv
        · simp only [validate_go, if_neg h1, if_pos h2]
          rw [hi, List.cons_append]
        · intro x hx
          rcases hs x hx with h | ⟨u, hu, hd, ha⟩
          · exact Or.inl h
          · exact Or.inr ⟨u, List.mem_cons_of_mem _ hu, hd, ha⟩
      · obtain ⟨seen', hv, hi, hs⟩ := validate_go_append l rest (tx.date :: seen)
        refine ⟨seen', ?_, ?_, ?_⟩
        · simp only [validate_go, if_neg h1, if_neg h2]
          rw [hv, List.cons_append]
        · simp only [validate_go, if_neg h1, if_neg h2]
          exact hi
        · intro x hx
          rcases hs x hx with hx' | ⟨u, hu, hd, ha⟩
          · rcases List.mem_cons.1 hx' with h | h
            · exact Or.inr ⟨tx, List.mem_cons_self _ _, h.symm, not_lt.1 h1⟩
            · exact Or.inl h
          · exact Or.inr ⟨u, List.mem_cons_of_mem _ hu, hd, ha⟩

lemma validate_accepts_late_nonneg (l1 l2 l3 : List TransactionOutput)
    (t t' : TransactionOutput) (hneg : t.amount < 0) (hpos : 0 ≤ t'.amount)
    (hdate : t'.date = t.date) (hothers : ∀ u ∈ l1 ++ l2, u.date ≠ t.date) :
    t' ∈ (validate_transactions (l1 ++ t :: l2 ++ t' :: l3)).1 := by
  have hsplit : l1 ++ t :: l2 ++ t' :: l3 = (l1 ++ t :: l2) ++ (t' :: l3) := by
    simp [List.append_assoc]
  rw [validate_transactions, hsplit]
  obtain ⟨seen', hv, _, hs⟩ := validate_go_append (l1 ++ t :: l2) (t' :: l3) []
  rw [hv]
  apply List.mem_append_right
  have hnotin : t'.date ∉ seen' := by
    intro hx
    rcases hs _ hx with h | ⟨u, hu, hd, ha⟩
    · exact List.not_mem_nil _ h
    · rcases List.mem_append.1 hu with hul | hur
      · exact hothers u (List.mem_append_left _ hul) (hd.trans hdate)
      · rcases List.mem_cons.1 hur with hut | hul2
        · subst hut
          exact absurd ha (not_le.2 hneg)
        · exact hothers u (List.mem_append_right _ hul2) (hd.trans hdate)
  simp only [validate_go, if_neg (not_lt.2 hpos), if_neg hnotin]
  exact List.mem_cons_self _ _

lemma filter_go_append (pq : List ParsedQ) (pp : List (ℤ × ℤ × ℚ))
    (pk : List (ℤ × ℤ)) : ∀ (l rest : List TransactionOutput) (seen : List ℤ),
    ∃ seen' : List ℤ,
      (filter_go pq pp pk seen (l ++ rest)).1 =
        (filter_go pq pp pk seen l).1 ++ (filter_go pq pp pk seen' rest).1 ∧
      (filter_go pq pp pk seen (l ++ rest)).2 =
        (filter_go pq pp pk seen l).2 ++ (filter_go pq pp pk seen' rest).2 ∧
      ∀ x ∈ seen', x ∈ seen ∨ ∃ u ∈ l, u.date = x ∧ 0 ≤ u.amount
  | [], rest, seen =>
    ⟨seen, by simp [filter_go], by simp [filter_go], fun x hx => Or.inl hx⟩
  | tx :: l, rest, seen => by
    simp only [List.cons_append]
    by_cases h1 : tx.amount < 0
    · obtain ⟨seen', hv, hi, hs⟩ := filter_go_append pq pp pk l rest seen
      refine ⟨seen', ?_, ?_, ?_⟩
      · simp only [filter_go, if_pos h1]
        exact hv
      · simp only [filter_go, if_pos h1]
        rw [hi, List.cons_append]
      · intro x hx
        rcases hs x hx with h | ⟨u, hu, hd, ha⟩
        · exact Or.inl h
        · exact Or.inr ⟨u, List.mem_cons_of_mem _ hu, hd, ha⟩
    · by_cases h2 : tx.date ∈ seen
      · obtain ⟨seen', hv, hi, hs⟩ := filter_go_append pq pp pk l rest seen
        refine ⟨seen', ?_, ?_, ?_⟩
        · simp only [filter_go, if_neg h1, if_pos h2]
          exact hv
        · simp only [filter_go, if_neg h1, if_pos h2]
          rw [hi, List.cons_append]
        · intro x hx
          rcases hs x hx with h | ⟨u, hu, hd, ha⟩
          · exact Or.inl h
          · exact Or.inr ⟨u, List.mem_cons_of_mem _ hu, hd, ha⟩
      · obtain ⟨seen', hv, hi, hs⟩ := filter_go_append pq pp pk l rest (tx.date :: seen)
        refine ⟨seen', ?_, ?_, ?_⟩
        · simp only [filter_go, if_neg h1, if_neg h2]
          rw [hv, List.cons_append]
        · simp only [filter_go, if_neg h1, if_neg h2]
          exact hi
        · intro x hx
          rcases hs x hx with hx' | ⟨u, hu, hd, ha⟩
          · rcases List.mem_cons.1 hx' with h | h
            · exact Or.inr ⟨tx, List.mem_cons_self _ _, h.symm, not_lt.1 h1⟩
            · exact Or.inl h
          · exact Or.inr ⟨u, List.mem_cons_of_mem _ hu, hd, ha⟩

lemma filter_accepts_late_nonneg (qs : List PeriodQ) (ps : List PeriodP)
    (ks : List PeriodK) (l1 l2 l3 : List TransactionOutput)
    (t t' : TransactionOutput) (hneg : t.amount < 0) (hpos : 0 ≤ t'.amount)
    (hdate : t'.date = t.date) (hothers : ∀ u ∈ l1 ++ l2, u.date ≠ t.date) :
    ∃ e ∈ (filter_transactions qs ps ks (l1 ++ t :: l2 ++ t' :: l3)).1,
      e.date = t'.date ∧ e.amount = t'.amount := by
  have hsplit : l1 ++ t :: l2 ++ t' :: l3 = (l1 ++ t :: l2) ++ (t' :: l3) := by
    simp [List.append_assoc]
  rw [filter_transactions, hsplit]
  obtain ⟨seen', hv, _, hs⟩ :=
    filter_go_append (parseQ qs) (parseP ps) (ks.map (fun k => (k.start, k.stop)))
      (l1 ++ t :: l2) (t' :: l3) []
  rw [hv]
  have hnotin : t'.date ∉ seen' := by
    intro hx
    rcases hs _ hx with h | ⟨u, hu, hd, ha⟩
    · exact List.not_mem_nil _ h
    · rcases List.mem_append.1 hu with hul | hur
      · exact hothers u (List.mem_append_left _ hul) (hd.trans hdate)
      · rcases List.mem_cons.1 hur with hut | hul2
        · subst hut
          exact absurd ha (not_le.2 hneg)
        · exact hothers u (List.mem_append_right _ hul2) (hd.trans hdate)
  refine ⟨{ t' with
      remanent := process_transaction_rules_fast t'.date t'.remanent (parseQ qs) (parseP ps),
      inkPeriod := some ((ks.map (fun k => (k.start, k.stop))).any
        (fun k => decide (k.1 ≤ t'.date) && decide (t'.date ≤ k.2))) }, ?_, rfl, rfl⟩
  apply List.mem_append_right
  simp only [filter_go, if_neg (not_lt.2 hpos), if_neg hnotin]
  exact List.mem_cons_self _ _

lemma returns_valid_txs_append (pq : List ParsedQ) (pp : List (ℤ × ℤ × ℚ)) :
    ∀ (l rest : List TransactionOutput) (seen : List ℤ),
    ∃ seen' : List ℤ,
      returns_valid_txs pq pp seen (l ++ rest) =
        returns_valid_txs pq pp seen l ++ returns_valid_txs pq pp seen' rest ∧
      ∀ x ∈ seen', x ∈ seen ∨ ∃ u ∈ l, u.date = x ∧ 0 ≤ u.amount
  | [], rest, seen => ⟨seen, by simp [returns_valid_txs], fun x hx => Or.inl hx⟩
  | tx :: l, rest, seen => by
    simp only [List.cons_append]
    by_cases h1 : 0 ≤ tx.amount ∧ tx.date ∉ seen
    · obtain ⟨seen', hv, hs⟩ := returns_valid_txs_append pq pp l rest (tx.date :: seen)
      refine ⟨seen', ?_, ?_⟩
      · simp only [returns_valid_txs, if_pos h1]
        rw [hv, List.cons_append]
      · intro x hx
        rcases hs x hx with hx' | ⟨u, hu, hd, ha⟩
        · rcases List.mem_cons.1 hx' with h | h
          · exact Or.inr ⟨tx, List.mem_cons_self _ _, h.symm, h1.1⟩
          · exact Or.inl h
        · exact Or.inr ⟨u, List.mem_cons_of_mem _ hu, hd, ha⟩
    · obtain ⟨seen', hv, hs⟩ := returns_valid_txs_append pq pp l rest seen
      refine ⟨seen', ?_, ?_⟩
      · simp only [returns_valid_txs, if_neg h1]
        exact hv
      · intro x hx
        rcases hs x hx with h | ⟨u, hu, hd, ha⟩
        · exact Or.inl h
        · exact Or.inr ⟨u, List.mem_cons_of_mem _ hu, hd, ha⟩

lemma returns_accepts_late_nonneg (pq : List ParsedQ) (pp : List (ℤ × ℤ × ℚ))
    (l1 l2 l3 : List TransactionOutput) (t t' : TransactionOutput)
    (hneg : t.amount < 0) (hpos : 0 ≤ t'.amount) (hdate : t'.date = t.date)
    (hothers : ∀ u ∈ l1 ++ l2, u.date ≠ t.date) :
    (t'.date, process_transaction_rules_fast t'.date t'.remanent pq pp) ∈
      returns_valid_txs pq pp [] (l1 ++ t :: l2 ++ t' :: l3) := by
  have hsplit : l1 ++ t :: l2 ++ t' :: l3 = (l1 ++ t :: l2) ++ (t' :: l3) := by
    simp [List.append_assoc]
  rw [hsplit]
  obtain ⟨seen', hv, hs⟩ := returns_valid_txs_append pq pp (l1 ++ t :: l2) (t' :: l3) []
  rw [hv]
  have hnotin : t'.date ∉ seen' := by
    intro hx
    rcases hs _ hx with h | ⟨u, hu, hd, ha⟩
    · exact List.not_mem_nil _ h
    · rcases List.mem_append.1 hu with hul | hur
      · exact hothers u (List.mem_append_left _ hul) (hd.trans hdate)
      · rcases List.mem_cons.1 hur with hut | hul2
        · subst hut
          exact absurd ha (not_le.2 hneg)
        · exact hothers u (List.mem_append_right _ hul2) (hd.trans hdate)
  apply List.mem_append_right
  simp only [returns_valid_txs, if_pos (And.intro hpos hnotin)]
  exact List.mem_cons_self _ _

/-- C10: a transaction rejected for a negative amount does not mark its
date as seen: in the validator, the filter endpoint, and the returns
validation loop of the orchestrator, a later non-negative transaction with the
same date (the date occurring nowhere else in between) is still accepted
as valid. -/
theorem C10_negative_does_not_mark_seen :
    (∀ (l1 l2 l3 : List TransactionOutput) (t t' : TransactionOutput),
      t.amount < 0 → 0 ≤ t'.amount → t'.date = t.date →
      (∀ u ∈ l1 ++ l2, u.date ≠ t.date) →
      t' ∈ (validate_transactions (l1 ++ t :: l2 ++ t' :: l3)).1) ∧
    (∀ (qs : List PeriodQ) (ps : List PeriodP) (ks : List PeriodK)
      (l1 l2 l3 : List TransactionOutput) (t t' : TransactionOutput),
      t.amount < 0 → 0 ≤ t'.amount → t'.date = t.date →
      (∀ u ∈ l1 ++ l2, u.date ≠ t.date) →
      ∃ e ∈ (filter_transactions qs ps ks (l1 ++ t :: l2 ++ t' :: l3)).1,
        e.date = t'.date ∧ e.amount = t'.amount) ∧
    (∀ (pq : List ParsedQ) (pp : List (ℤ × ℤ × ℚ))
      (l1 l2 l3 : List TransactionOutput) (t t' : TransactionOutput),
      t.amount < 0 → 0 ≤ t'.amount → t'.date = t.date →
      (∀ u ∈ l1 ++ l2, u.date ≠ t.date) →
      (t'.date, process_transaction_rules_fast t'.date t'.remanent pq pp) ∈
        returns_valid_txs pq pp [] (l1 ++ t :: l2 ++ t' :: l3)) :=
  ⟨fun l1 l2 l3 t t' h1 h2 h3 h4 => validate_accepts_late_nonneg l1 l2 l3 t t' h1 h2 h3 h4,
    fun qs ps ks l1 l2 l3 t t' h1 h2 h3 h4 =>
      filter_accepts_late_nonneg qs ps ks l1 l2 l3 t t' h1 h2 h3 h4,
    fun pq pp l1 l2 l3 t t' h1 h2 h3 h4 =>
      returns_accepts_late_nonneg pq pp l1 l2 l3 t t' h1 h2 h3 h4⟩

theorem C10_witness :
    { date := (0 : ℤ), amount := (3 : ℚ), ceiling := 0, remanent := 0,
        inkPeriod := none, message := none : TransactionOutput } ∈
      (validate_transactions
        [{ date := 0, amount := -5, ceiling := 0, remanent := 0 },
         { date := 0, amount := 3, ceiling := 0, remanent := 0 }]).1 :=
  C10_negative_does_not_mark_seen.1 [] [] []
    { date := 0, amount := -5, ceiling := 0, remanent := 0 }
    { date := 0, amount := 3, ceiling := 0, remanent := 0 }
    (by norm_num) (by norm_num) rfl (by simp)

theorem C8_witness :
    calculate_tax 1 ≤ calculate_tax 2 ∧
    BASE_TAX.getD 2 0 =
      BASE_TAX.getD 1 0 +
        (THRESHOLDS.getD 1 0 - PREV_THRESHOLDS.getD 1 0) * RATES.getD 1 0 ∧
    calculate_tax (THRESHOLDS.getD 1 0) =
      round2 (BASE_TAX.getD 1 0 +
        (THRESHOLDS.getD 1 0 - PREV_THRESHOLDS.getD 1 0) * RATES.getD 1 0) :=
  ⟨C8_tax_monotone_continuous.1 1 2 (by norm_num),
    C8_tax_monotone_continuous.2.1 1 (by norm_num),
    C8_tax_monotone_continuous.2.2 1 (by norm_num)⟩

/-- C6: the Index preset yields `taxBenefit = none` in every
`SavingsByDate` entry, while the NPS preset yields a `some` value computed
as `round2 (tax yi - tax (yi - deduction))` with `yi = monthlyWage * 12`
and `deduction = min(periodAmount, 0.10 * yi, 200000)`. -/
theorem C6_tax_benefit_presets (payload : ReturnsRequest) :
    (∀ e ∈ (returns_index payload).savingsByDates, e.taxBenefit = none) ∧
    (∀ e ∈ (returns_nps payload).savingsByDates, ∃ pa : ℚ,
      e.amount = round2 pa ∧
      e.taxBenefit = some (round2 (calculate_tax (payload.wage * 12) -
        calculate_tax (payload.wage * 12 -
          min pa (min (10 / 100 * (payload.wage * 12)) 200000))))) := by
  constructor
  · intro e he
    simp only [returns_index, calculate_returns] at he
    obtain ⟨k, hk, hek⟩ := List.mem_map.1 he
    rw [← hek]
    simp [savings_entry]
  · intro e he
    simp only [returns_nps, calculate_returns] at he
    obtain ⟨k, hk, hek⟩ := List.mem_map.1 he
    refine ⟨(((returns_valid_txs (parseQ payload.q) (parseP payload.p) []
        payload.transactions).filter
        (fun d => decide (k.start ≤ d.1) && decide (d.1 ≤ k.stop))).map
        (fun d => d.2)).sum, ?_, ?_⟩
    · rw [← hek]
      simp [savings_entry]
    · rw [← hek]
      simp [savings_entry]

theorem C6_witness :
    (savings_entry (returns_valid_txs (parseQ []) (parseP []) [] [])
        ((0 : ℚ) * 12) ((max (60 - (30 : ℤ)) 5).toNat) (1449 / 10000) 0 false
        ⟨0, 10⟩).taxBenefit = none ∧
    ∃ pa : ℚ,
      (savings_entry (returns_valid_txs (parseQ []) (parseP []) [] [])
          ((0 : ℚ) * 12) ((max (60 - (30 : ℤ)) 5).toNat) (711 / 10000) 0 true
          ⟨0, 10⟩).amount = round2 pa ∧
      (savings_entry (returns_valid_txs (parseQ []) (parseP []) [] [])
          ((0 : ℚ) * 12) ((max (60 - (30 : ℤ)) 5).toNat) (711 / 10000) 0 true
          ⟨0, 10⟩).taxBenefit =
        some (round2 (calculate_tax ((0 : ℚ) * 12) -
          calculate_tax ((0 : ℚ) * 12 -
            min pa (min (10 / 100 * ((0 : ℚ) * 12)) 200000)))) :=
  ⟨(C6_tax_benefit_presets ⟨30, 0, 0, [], [], [⟨0, 10⟩], []⟩).1 _
      (List.mem_singleton.2 rfl),
    (C6_tax_benefit_presets ⟨30, 0, 0, [], [], [⟨0, 10⟩], []⟩).2 _
      (List.mem_singleton.2 rfl)⟩

/-- C7: the compound projector computes
`futureValue = periodAmount * (1 + rate) ^ years` and
`realValue = futureValue / (1 + inflation / 100) ^ years`; the
horizon used by the orchestrator is `years = max (60 - age) 5`, never below 5 for any
age; and the profit of each entry is `round2 (realValue - periodAmount)`. -/
theorem C7_compound_projector (payload : ReturnsRequest) (rate : ℚ) (is_nps : Bool) :
    (∀ (pa r infl : ℚ) (y : ℕ),
      fast_compound_math pa r infl y =
        (pa * (1 + r) ^ y, pa * (1 + r) ^ y / (1 + infl / 100) ^ y)) ∧
    5 ≤ (max (60 - payload.age) 5).toNat ∧
    (∀ e ∈ (calculate_returns payload rate is_nps).savingsByDates, ∃ pa : ℚ,
      e.amount = round2 pa ∧
      e.profit = some (round2 ((fast_compound_math pa rate payload.inflation
        ((max (60 - payload.age) 5).toNat)).2 - pa))) := by
  refine ⟨fun pa r infl y => rfl, ?_, ?_⟩
  · have h : (5 : ℤ) ≤ max (60 - payload.age) 5 := le_max_right _ _
    omega
  · intro e he
    simp only [calculate_returns] at he
    obtain ⟨k, hk, hek⟩ := List.mem_map.1 he
    refine ⟨(((returns_valid_txs (parseQ payload.q) (parseP payload.p) []
        payload.transactions).filter
        (fun d => decide (k.start ≤ d.1) && decide (d.1 ≤ k.stop))).map
        (fun d => d.2)).sum, ?_, ?_⟩
    · rw [← hek]
      simp [savings_entry]
    · rw [← hek]
      simp [savings_entry]

theorem C7_witness :
    5 ≤ (max (60 - (70 : ℤ)) 5).toNat ∧
    ∃ pa : ℚ,
      (savings_entry (returns_valid_txs (parseQ []) (parseP []) [] [])
          ((0 : ℚ) * 12) ((max (60 - (70 : ℤ)) 5).toNat) (1 / 10) 0 false
          ⟨0, 10⟩).amount = round2 pa ∧
      (savings_entry (returns_valid_txs (parseQ []) (parseP []) [] [])
          ((0 : ℚ) * 12) ((max (60 - (70 : ℤ)) 5).toNat) (1 / 10) 0 false
          ⟨0, 10⟩).profit =
        some (round2 ((fast_compound_math pa (1 / 10) 0
          ((max (60 - (70 : ℤ)) 5).toNat)).2 - pa)) :=
  ⟨(C7_compound_projector ⟨70, 0, 0, [], [], [⟨0, 10⟩], []⟩ (1 / 10) false).2.1,
    (C7_compound_projector ⟨70, 0, 0, [], [], [⟨0, 10⟩], []⟩ (1 / 10) false).2.2 _
      (List.mem_singleton.2 rfl)⟩

end BlackrockApp
